import Mathlib

/-!
Verification of the zone-record reconciliation engine of the
external-dns-volcengine-webhook repository.

Go strings are modelled as `List Char` (`GoStr`); Go's `strings` functions
(`HasPrefix`, `HasSuffix`, `TrimSuffix`, slicing) are translated to explicit
`take`/`drop` operations on character lists.  Machine integers (`int`,
`int32`, `int64`) are modelled as `Int`; none of the modelled arithmetic can
overflow in the programs considered.  Fallible remote calls are modelled as
`Except`-valued oracles, and the sequence of remote calls a routine issues is
made explicit as a trace (a list of call descriptions) returned next to the
result.
-/

set_option maxHeartbeats 1000000

namespace VolcDNS

/-- Go strings as lists of characters. -/
abbrev GoStr := List Char

/-- Coerce a Lean string literal to the Go-string model. -/
def gs (s : String) : GoStr := s.data

/-- Go `strings.HasSuffix(s, suf)`: `len(s) >= len(suf) && s[len(s)-len(suf):] == suf`. -/
def goEndsWith (s suf : GoStr) : Bool :=
  decide (suf.length ≤ s.length) && (s.drop (s.length - suf.length) == suf)

/-- Go `strings.HasPrefix(s, p)`: `len(s) >= len(p) && s[:len(p)] == p`. -/
def goStartsWith (s p : GoStr) : Bool :=
  decide (p.length ≤ s.length) && (s.take p.length == p)

/-- Go `strings.TrimSuffix(s, suf)`: `s[:len(s)-len(suf)]` when `suf` is a suffix, else `s`. -/
def goTrimSuffix (s suf : GoStr) : GoStr :=
  if goEndsWith s suf then s.take (s.length - suf.length) else s

/-- `nullHostPrivateZone = "@"` (privatezone.go). -/
def nullHostPrivateZone : GoStr := ['@']

/-- `escapeTXTRecordValue` (utils.go): if the value starts with `"heritage=`,
remove every double quote (`strings.ReplaceAll(value, "\"", "")`); else identity. -/
def escapeTXTRecordValue (value : GoStr) : GoStr :=
  if goStartsWith value ('"' :: gs "heritage=") then
    value.filter (fun c => !(c == '"'))
  else value

/-- `unescapeTXTRecordValue` (utils.go): if the value starts with `heritage=`,
wrap the whole value in double quotes (`fmt.Sprintf("\"%s\"", value)`); else identity. -/
def unescapeTXTRecordValue (value : GoStr) : GoStr :=
  if goStartsWith value (gs "heritage=") then
    '"' :: (value ++ ['"'])
  else value

/-- `getDNSName(host, domain)` (utils.go): `domain` for the null host `"@"`,
else `host + "." + domain`. -/
def getDNSName (host domain : GoStr) : GoStr :=
  if host == nullHostPrivateZone then domain
  else host ++ ('.' :: domain)

/-- `splitDNSName(dnsName, zoneName)` (utils.go): strip one trailing dot, then
split off the zone suffix; an empty computed host becomes the `"@"` sentinel. -/
def splitDNSName (dnsName zoneName : GoStr) : GoStr × GoStr :=
  let name := goTrimSuffix dnsName ['.']
  let hostDomain :=
    if goEndsWith name ('.' :: zoneName) then
      (name.take (name.length - zoneName.length - 1), zoneName)
    else if name == zoneName then
      (([] : GoStr), zoneName)
    else (([] : GoStr), ([] : GoStr))
  if hostDomain.1 == ([] : GoStr) then (nullHostPrivateZone, hostDomain.2)
  else hostDomain

/-- `cleanCNAMEValue` (utils.go): `strings.TrimSuffix(value, ".")`. -/
def cleanCNAMEValue (value : GoStr) : GoStr :=
  goTrimSuffix value ['.']

/-- `completeCNAMEValue` (utils.go): append a trailing dot when absent. -/
def completeCNAMEValue (value : GoStr) : GoStr :=
  if !(goEndsWith value ['.']) then value ++ ['.'] else value

/-! ### Basic facts about the Go string operations -/

theorem goEndsWith_append (a b : GoStr) : goEndsWith (a ++ b) b = true := by
  simp [goEndsWith]

theorem goEndsWith_length_le {s suf : GoStr} (h : goEndsWith s suf = true) :
    suf.length ≤ s.length := by
  simp [goEndsWith] at h
  exact h.1

/-- A suffix test only looks at the last `suf.length` characters. -/
theorem goEndsWith_append_left (a b suf : GoStr) (h : suf.length ≤ b.length) :
    goEndsWith (a ++ b) suf = goEndsWith b suf := by
  simp only [goEndsWith, List.length_append]
  have h1 : a.length + b.length - suf.length = a.length + (b.length - suf.length) := by omega
  rw [h1, List.drop_append]
  have h2 : decide (suf.length ≤ a.length + b.length) = decide (suf.length ≤ b.length) :=
    decide_eq_decide.mpr (by omega)
  rw [h2]

theorem goTrimSuffix_append (a b : GoStr) : goTrimSuffix (a ++ b) b = a := by
  simp [goTrimSuffix, goEndsWith_append a b]

theorem goTrimSuffix_of_not_endsWith {s suf : GoStr} (h : goEndsWith s suf = false) :
    goTrimSuffix s suf = s := by
  simp [goTrimSuffix, h]

/-! ### C9: dot-completion followed by dot-stripping -/

/-- **C9.** For every string `v`, `cleanCNAMEValue (completeCNAMEValue v) = cleanCNAMEValue v`:
appending the single trailing dot (only when absent) and then stripping one
trailing dot is the same as stripping one trailing dot directly. -/
theorem cleanCNAME_completeCNAME (v : GoStr) :
    cleanCNAMEValue (completeCNAMEValue v) = cleanCNAMEValue v := by
  by_cases h : goEndsWith v ['.'] = true
  · simp [completeCNAMEValue, h]
  · have hfalse : goEndsWith v ['.'] = false := by
      simpa using h
    simp only [completeCNAMEValue, hfalse, Bool.not_false, if_pos]
    rw [cleanCNAMEValue, goTrimSuffix_append, cleanCNAMEValue,
      goTrimSuffix_of_not_endsWith hfalse]

/-! ### C6: host/zone round trip -/

theorem goEndsWith_self_cons_false (c : Char) (z : GoStr) :
    goEndsWith z (c :: z) = false := by
  simp [goEndsWith]

/-- **C6.** For every zone name `z` (nonempty, without a trailing dot) and every
nonempty relative host `h` (including the null-host sentinel `"@"`),
`splitDNSName (getDNSName h z) z = (h, z)`; the zone apex maps to
`dnsName = z` on read and back to host `"@"` on write. -/
theorem splitDNSName_getDNSName (h z : GoStr)
    (hh : h ≠ []) (hz : z ≠ []) (hzdot : goEndsWith z ['.'] = false) :
    splitDNSName (getDNSName h z) z = (h, z) := by
  by_cases hat : h = nullHostPrivateZone
  · subst hat
    have hname : goTrimSuffix z ['.'] = z := goTrimSuffix_of_not_endsWith hzdot
    have hends : goEndsWith z ('.' :: z) = false := goEndsWith_self_cons_false '.' z
    simp [splitDNSName, getDNSName, hname, hends]
  · have hbeq : (h == nullHostPrivateZone) = false := by
      simpa using hat
    have hdotz : goEndsWith ('.' :: z) ['.'] = false := by
      have hlen : ([] ++ ('.' :: z) : GoStr) = '.' :: z := by simp
      have : goEndsWith ('.' :: z) ['.'] = goEndsWith z ['.'] := by
        have := goEndsWith_append_left ['.'] z ['.']
          (by cases z with
              | nil => exact absurd rfl hz
              | cons a t => simp)
        simpa using this
      rw [this, hzdot]
    have hname : goTrimSuffix (h ++ ('.' :: z)) ['.'] = h ++ ('.' :: z) := by
      apply goTrimSuffix_of_not_endsWith
      rw [goEndsWith_append_left h ('.' :: z) ['.'] (by simp)]
      exact hdotz
    have hsuffix : goEndsWith (h ++ ('.' :: z)) ('.' :: z) = true :=
      goEndsWith_append h ('.' :: z)
    have htake : (h ++ ('.' :: z)).take ((h ++ ('.' :: z)).length - z.length - 1) = h := by
      have hlen : (h ++ ('.' :: z)).length - z.length - 1 = h.length := by
        simp only [List.length_append, List.length_cons]
        omega
      rw [hlen, List.take_left]
    have hhbeq : (h == ([] : GoStr)) = false := by simpa using hh
    simp only [splitDNSName, getDNSName, hbeq, Bool.false_eq_true, if_false, hname,
      hsuffix, if_true, htake, hhbeq]

theorem splitDNSName_getDNSName_witness :
    ((gs "www" ≠ [] ∧ gs "example.com" ≠ [] ∧
        goEndsWith (gs "example.com") ['.'] = false) ∧
      splitDNSName (getDNSName (gs "www") (gs "example.com")) (gs "example.com")
        = (gs "www", gs "example.com")) ∧
    ((nullHostPrivateZone ≠ [] ∧ gs "example.com" ≠ [] ∧
        goEndsWith (gs "example.com") ['.'] = false) ∧
      splitDNSName (getDNSName nullHostPrivateZone (gs "example.com")) (gs "example.com")
        = (nullHostPrivateZone, gs "example.com")) :=
  ⟨⟨⟨by decide, by decide, by decide⟩,
      splitDNSName_getDNSName (gs "www") (gs "example.com") (by decide) (by decide) (by decide)⟩,
    ⟨⟨by decide, by decide, by decide⟩,
      splitDNSName_getDNSName nullHostPrivateZone (gs "example.com") (by decide) (by decide) (by decide)⟩⟩

/-! ### The data model of the read path (privatezone.go)

`RecordForListRecordsOutput` fields used by the code, with the SDK's
`StringValue` / `Int32Value` nil-defaulting already applied. -/

structure PZRecord where
  host : GoStr
  typ : GoStr
  value : GoStr
  ttl : Int
  recordID : GoStr
deriving DecidableEq, Repr, Inhabited

/-- Endpoints as produced by `endpoint.NewEndpointWithTTL`. -/
structure Endpoint where
  dnsName : GoStr
  recordType : GoStr
  targets : List GoStr
  recordTTL : Int
deriving DecidableEq, Repr, Inhabited

/-- The grouping key of `groupPrivateZoneRecords`:
`volcengine.StringValue(record.Type) + ":" + volcengine.StringValue(record.Host)`. -/
def recordKey (r : PZRecord) : GoStr := r.typ ++ (':' :: r.host)

/-- One step of the map update `endpointMap[key] = append(endpointMap[key], rec)`:
a Go map modelled as an association list keyed in first-occurrence order. -/
def insertGrouped (m : List (GoStr × List PZRecord)) (k : GoStr) (r : PZRecord) :
    List (GoStr × List PZRecord) :=
  match m with
  | [] => [(k, [r])]
  | (k', g) :: rest =>
    if k' = k then (k', g ++ [r]) :: rest else (k', g) :: insertGrouped rest k r

/-- `groupPrivateZoneRecords` (privatezone.go): build `endpointMap` by appending
each record to the group of its key. -/
def groupPrivateZoneRecords (records : List PZRecord) : List (GoStr × List PZRecord) :=
  records.foldl (fun m r => insertGrouped m (recordKey r) r) []

/-- The body of the per-group loop of `ListRecordsByVPC` step 3 (privatezone.go):
`record := recordList[0]`, `dnsName := getDNSName(record.Host, zoneName)`,
`ttl := record.TTL`, targets collected from the group in list order (the value
is taken verbatim; the `unescapeTXTRecordValue` call there is commented out). -/
def endpointOfGroup (zoneName : GoStr) (recordList : List PZRecord) : Endpoint :=
  let record := recordList.headI
  { dnsName := getDNSName record.host zoneName
    recordType := record.typ
    targets := recordList.map (fun r => r.value)
    recordTTL := record.ttl }

/-- The per-zone part of `ListRecordsByVPC` (privatezone.go): group the zone's
records and emit one endpoint per group. -/
def listRecordsZone (zoneName : GoStr) (records : List PZRecord) : List Endpoint :=
  (groupPrivateZoneRecords records).map (fun kv => endpointOfGroup zoneName kv.2)

/-- A private zone as listed by `ListPrivateZones`: `ZID` and `ZoneName`. -/
structure PZZone where
  zid : Int
  zoneName : GoStr
deriving DecidableEq, Repr, Inhabited

/-- `ListRecordsByVPC` (privatezone.go), with the remote store snapshot made
explicit: each zone bound to the VPC paired with its record listing.  Zones
with zero records contribute nothing (the code skips them with `continue`). -/
def ListRecordsByVPC (zones : List (PZZone × List PZRecord)) : List Endpoint :=
  (zones.map (fun z => listRecordsZone z.1.zoneName z.2)).flatten

/-! ### Association-list lemmas for the grouping map -/

def lookupGroup (m : List (GoStr × List PZRecord)) (k : GoStr) : Option (List PZRecord) :=
  match m with
  | [] => none
  | (k', g) :: rest => if k' = k then some g else lookupGroup rest k

theorem lookupGroup_insertGrouped_same (m : List (GoStr × List PZRecord))
    (k : GoStr) (r : PZRecord) :
    lookupGroup (insertGrouped m k r) k = some ((lookupGroup m k).getD [] ++ [r]) := by
  induction m with
  | nil => simp [insertGrouped, lookupGroup]
  | cons hd tl ih =>
    obtain ⟨k', g⟩ := hd
    by_cases hk : k' = k
    · subst hk
      simp [insertGrouped, lookupGroup]
    · simp [insertGrouped, lookupGroup, hk, ih]

theorem lookupGroup_insertGrouped_other (m : List (GoStr × List PZRecord))
    (k k'' : GoStr) (r : PZRecord) (hne : k'' ≠ k) :
    lookupGroup (insertGrouped m k r) k'' = lookupGroup m k'' := by
  have hne' : ¬(k = k'') := fun h => hne h.symm
  induction m with
  | nil => simp [insertGrouped, lookupGroup, hne']
  | cons hd tl ih =>
    obtain ⟨k', g⟩ := hd
    by_cases hk : k' = k
    · subst hk
      simp [insertGrouped, lookupGroup, hne']
    · simp only [insertGrouped, if_neg hk, lookupGroup]
      by_cases hk2 : k' = k''
      · simp [hk2]
      · simp [hk2, ih]

theorem groupPrivateZoneRecords_append (records : List PZRecord) (r : PZRecord) :
    groupPrivateZoneRecords (records ++ [r])
      = insertGrouped (groupPrivateZoneRecords records) (recordKey r) r := by
  simp [groupPrivateZoneRecords, List.foldl_append]

/-- The group stored under key `k` is exactly the sublist of records with that
key, in listing order. -/
theorem lookupGroup_group (records : List PZRecord) (k : GoStr) :
    lookupGroup (groupPrivateZoneRecords records) k
      = (if records.filter (fun r => recordKey r = k) = [] then none
          else some (records.filter (fun r => recordKey r = k))) := by
  induction records using List.reverseRecOn with
  | nil => simp [groupPrivateZoneRecords, lookupGroup]
  | append_singleton rs r ih =>
    rw [groupPrivateZoneRecords_append, List.filter_append]
    by_cases hk : recordKey r = k
    · rw [hk, lookupGroup_insertGrouped_same, ih]
      by_cases hempty : rs.filter (fun r => recordKey r = k) = []
      · simp [hempty, hk]
      · simp [hempty, hk]
    · rw [lookupGroup_insertGrouped_other _ _ _ _ (fun h => hk h.symm), ih]
      simp [hk]

theorem keys_insertGrouped (m : List (GoStr × List PZRecord)) (k : GoStr) (r : PZRecord) :
    (insertGrouped m k r).map Prod.fst
      = (if k ∈ m.map Prod.fst then m.map Prod.fst else m.map Prod.fst ++ [k]) := by
  induction m with
  | nil => simp [insertGrouped]
  | cons hd tl ih =>
    obtain ⟨k', g⟩ := hd
    by_cases hk : k' = k
    · subst hk
      simp [insertGrouped]
    · have hne : ¬(k = k') := fun h => hk h.symm
      simp only [insertGrouped, if_neg hk, List.map_cons, ih, List.mem_cons]
      by_cases hmem : k ∈ tl.map Prod.fst
      · simp [hmem, hne]
      · simp [hmem, hne]

theorem nodup_keys_group (records : List PZRecord) :
    ((groupPrivateZoneRecords records).map Prod.fst).Nodup := by
  induction records using List.reverseRecOn with
  | nil => simp [groupPrivateZoneRecords]
  | append_singleton rs r ih =>
    rw [groupPrivateZoneRecords_append, keys_insertGrouped]
    by_cases hmem : recordKey r ∈ (groupPrivateZoneRecords rs).map Prod.fst
    · simpa [hmem] using ih
    · simp only [hmem, if_false]
      refine List.Nodup.append ih (List.nodup_singleton _) ?_
      intro a ha hb
      rw [List.mem_singleton] at hb
      exact hmem (hb ▸ ha)

theorem lookupGroup_of_mem {m : List (GoStr × List PZRecord)}
    (hnodup : (m.map Prod.fst).Nodup) {p : GoStr × List PZRecord} (hp : p ∈ m) :
    lookupGroup m p.1 = some p.2 := by
  induction m with
  | nil => cases hp
  | cons hd tl ih =>
    obtain ⟨k', g⟩ := hd
    have hnd : (k' :: tl.map Prod.fst).Nodup := by simpa using hnodup
    rcases List.mem_cons.mp hp with heq | htl
    · subst heq
      simp [lookupGroup]
    · have hk : k' ≠ p.1 := by
        intro hcontra
        exact (List.nodup_cons.mp hnd).1
          (hcontra ▸ (List.mem_map.mpr ⟨p, htl, rfl⟩))
      simp only [lookupGroup, if_neg hk]
      exact ih (List.nodup_cons.mp hnd).2 htl

/-- Cancelling around a separator character that occurs in neither left part. -/
theorem append_cons_inj {c : Char} :
    ∀ {a x b y : List Char}, c ∉ a → c ∉ x → a ++ c :: b = x ++ c :: y →
      a = x ∧ b = y := by
  intro a
  induction a with
  | nil =>
    intro x b y _ hx h
    cases x with
    | nil => simpa using h
    | cons x0 xs =>
      simp only [List.nil_append, List.cons_append, List.cons.injEq] at h
      exact absurd (h.1 ▸ List.mem_cons_self x0 xs) hx
  | cons a0 as ih =>
    intro x b y ha hx h
    cases x with
    | nil =>
      simp only [List.cons_append, List.nil_append, List.cons.injEq] at h
      exact absurd (h.1 ▸ List.mem_cons_self a0 as) ha
    | cons x0 xs =>
      simp only [List.cons_append, List.cons.injEq] at h
      have has : c ∉ as := fun hmem => ha (List.mem_cons_of_mem _ hmem)
      have hxs : c ∉ xs := fun hmem => hx (List.mem_cons_of_mem _ hmem)
      obtain ⟨h1, h2⟩ := ih has hxs h.2
      exact ⟨by rw [h.1, h1], h2⟩

/-- A record key decodes uniquely as long as the type contains no colon. -/
theorem recordKey_decode {r : PZRecord} {t h : GoStr}
    (hr : ':' ∉ r.typ) (ht : ':' ∉ t) (hk : recordKey r = t ++ ':' :: h) :
    r.typ = t ∧ r.host = h :=
  append_cons_inj hr ht hk

/-- `getDNSName` is injective in the host for a fixed zone name. -/
theorem getDNSName_inj (z : GoStr) {h h' : GoStr}
    (he : getDNSName h z = getDNSName h' z) : h = h' := by
  by_cases h1 : h = nullHostPrivateZone
  · by_cases h2 : h' = nullHostPrivateZone
    · rw [h1, h2]
    · exfalso
      rw [getDNSName, if_pos (by simpa using h1), getDNSName,
        if_neg (by simpa using h2)] at he
      have := congrArg List.length he
      simp only [List.length_append, List.length_cons] at this
      omega
  · by_cases h2 : h' = nullHostPrivateZone
    · exfalso
      rw [getDNSName, if_neg (by simpa using h1), getDNSName,
        if_pos (by simpa using h2)] at he
      have := congrArg List.length he
      simp only [List.length_append, List.length_cons] at this
      omega
    · rw [getDNSName, if_neg (by simpa using h1), getDNSName,
        if_neg (by simpa using h2)] at he
      exact List.append_cancel_right he

theorem headI_mem {α : Type} [Inhabited α] {l : List α} (h : l ≠ []) : l.headI ∈ l := by
  cases l with
  | nil => exact absurd rfl h
  | cons a t => simp

/-- An emitted endpoint passes the `(dnsName, type)` filter iff its group's key
is the encoded `(type, host)` key. -/
theorem endpointOfGroup_filter_iff (z t h : GoStr) (ht : ':' ∉ t)
    (p : GoStr × List PZRecord) (hne : p.2 ≠ [])
    (hall : ∀ r ∈ p.2, recordKey r = p.1 ∧ ':' ∉ r.typ) :
    (((endpointOfGroup z p.2).dnsName == getDNSName h z)
        && ((endpointOfGroup z p.2).recordType == t)) = true
      ↔ p.1 = t ++ ':' :: h := by
  have hhead : p.2.headI ∈ p.2 := headI_mem hne
  obtain ⟨hkey, hcol⟩ := hall p.2.headI hhead
  constructor
  · intro hpass
    simp only [endpointOfGroup, Bool.and_eq_true, beq_iff_eq] at hpass
    obtain ⟨hdns, htyp⟩ := hpass
    have hhost : p.2.headI.host = h := getDNSName_inj z hdns
    rw [← hkey, recordKey, htyp, hhost]
  · intro hkeq
    have hdec := recordKey_decode hcol ht (by rw [hkey, hkeq])
    simp only [endpointOfGroup, Bool.and_eq_true, beq_iff_eq]
    exact ⟨by rw [hdec.2], hdec.1⟩

/-- Mapping groups to endpoints and filtering on the encoded key keeps exactly
the one entry stored under that key. -/
theorem filter_map_groups (z t h : GoStr) (ht : ':' ∉ t) :
    ∀ (m : List (GoStr × List PZRecord)),
      (∀ p ∈ m, p.2 ≠ [] ∧ ∀ r ∈ p.2, recordKey r = p.1 ∧ ':' ∉ r.typ) →
      (m.map Prod.fst).Nodup →
      ∀ g, lookupGroup m (t ++ ':' :: h) = some g →
      (m.map fun kv => endpointOfGroup z kv.2).filter
          (fun e => (e.dnsName == getDNSName h z) && (e.recordType == t))
        = [endpointOfGroup z g] := by
  intro m
  induction m with
  | nil => intro _ _ g hg; cases hg
  | cons p rest ih =>
    intro hent hnodup g hg
    have hp := hent p (List.mem_cons_self p rest)
    have hrest : ∀ q ∈ rest, q.2 ≠ [] ∧ ∀ r ∈ q.2, recordKey r = q.1 ∧ ':' ∉ r.typ :=
      fun q hq => hent q (List.mem_cons_of_mem p hq)
    have hnd : (p.1 :: rest.map Prod.fst).Nodup := by simpa using hnodup
    by_cases hk : p.1 = t ++ ':' :: h
    · have hg' : g = p.2 := by
        have : lookupGroup (p :: rest) (t ++ ':' :: h) = some p.2 := by
          obtain ⟨k', g'⟩ := p
          simp only [lookupGroup]
          rw [if_pos hk]
        rw [this] at hg
        exact (Option.some.injEq _ _ ▸ hg).symm
      have hpass := (endpointOfGroup_filter_iff z t h ht p hp.1 hp.2).mpr hk
      have hrestnil :
          (rest.map fun kv => endpointOfGroup z kv.2).filter
              (fun e => (e.dnsName == getDNSName h z) && (e.recordType == t)) = [] := by
        rw [List.filter_eq_nil_iff]
        intro e he
        obtain ⟨q, hq, hqe⟩ := List.mem_map.mp he
        have hq1 : q.1 ≠ t ++ ':' :: h := by
          intro hcontra
          have hkmem : q.1 ∈ rest.map Prod.fst := List.mem_map.mpr ⟨q, hq, rfl⟩
          rw [hcontra, ← hk] at hkmem
          exact (List.nodup_cons.mp hnd).1 hkmem
        have := hrest q hq
        intro habs
        exact hq1 ((endpointOfGroup_filter_iff z t h ht q this.1 this.2).mp (hqe ▸ habs))
      simp only [List.map_cons, List.filter_cons, hpass, if_pos, hrestnil, hg']
    · have hg' : lookupGroup rest (t ++ ':' :: h) = some g := by
        obtain ⟨k', g''⟩ := p
        simp only [lookupGroup] at hg
        rw [if_neg hk] at hg
        exact hg
      have hfail :
          (((endpointOfGroup z p.2).dnsName == getDNSName h z)
              && ((endpointOfGroup z p.2).recordType == t)) = false := by
        rw [← Bool.not_eq_true]
        intro habs
        exact hk ((endpointOfGroup_filter_iff z t h ht p hp.1 hp.2).mp habs)
      simp only [List.map_cons, List.filter_cons, hfail, Bool.false_eq_true, if_false]
      exact ih hrest (List.nodup_cons.mp hnd).2 g hg'

/-- Every entry of the grouping map stores exactly the records with its key,
in listing order (and is nonempty). -/
theorem mem_group_eq_filter {records : List PZRecord} {p : GoStr × List PZRecord}
    (hp : p ∈ groupPrivateZoneRecords records) :
    p.2 = records.filter (fun r => recordKey r = p.1) ∧ p.2 ≠ [] := by
  have hlp := lookupGroup_of_mem (nodup_keys_group records) hp
  rw [lookupGroup_group] at hlp
  by_cases hnil : records.filter (fun r => recordKey r = p.1) = []
  · rw [if_pos hnil] at hlp
    cases hlp
  · rw [if_neg hnil] at hlp
    have hp2 : p.2 = records.filter (fun r => recordKey r = p.1) :=
      (Option.some.inj hlp).symm
    exact ⟨hp2, by rw [hp2]; exact hnil⟩

/-- **C1.** On the read path, for every zone, all records sharing one
`(type, host)` pair collapse into exactly one returned endpoint: its `dnsName`
is `getDNSName host zoneName`, its targets are the values of the group's
records in listing order, and its TTL is the TTL of the first record of the
group.  (Record types are assumed colon-free, as every DNS record type is;
the code's grouping key is the string `type + ":" + host`.) -/
theorem read_path_groups_records (z t h : GoStr) (records : List PZRecord)
    (hcolon : ∀ r ∈ records, ':' ∉ r.typ)
    (hex : ∃ r ∈ records, r.typ = t ∧ r.host = h) :
    (listRecordsZone z records).filter
        (fun e => (e.dnsName == getDNSName h z) && (e.recordType == t))
      = [{ dnsName := getDNSName h z
           recordType := t
           targets := (records.filter (fun r => r.typ = t ∧ r.host = h)).map
             (fun r => r.value)
           recordTTL := (records.filter (fun r => r.typ = t ∧ r.host = h)).headI.ttl }] := by
  obtain ⟨r0, hr0, hr0t, hr0h⟩ := hex
  have ht : ':' ∉ t := hr0t ▸ hcolon r0 hr0
  have hfeq : records.filter (fun r => r.typ = t ∧ r.host = h)
      = records.filter (fun r => recordKey r = t ++ ':' :: h) := by
    apply List.filter_congr
    intro r hr
    apply decide_eq_decide.mpr
    constructor
    · rintro ⟨h1, h2⟩
      rw [recordKey, h1, h2]
    · intro hk
      exact recordKey_decode (hcolon r hr) ht hk
  have hgne : records.filter (fun r => recordKey r = t ++ ':' :: h) ≠ [] := by
    intro habs
    have hr0g : r0 ∈ records.filter (fun r => recordKey r = t ++ ':' :: h) :=
      List.mem_filter.mpr ⟨hr0, by simp [recordKey, hr0t, hr0h]⟩
    rw [habs] at hr0g
    cases hr0g
  have hlook : lookupGroup (groupPrivateZoneRecords records) (t ++ ':' :: h)
      = some (records.filter (fun r => recordKey r = t ++ ':' :: h)) := by
    rw [lookupGroup_group, if_neg hgne]
  have hent : ∀ p ∈ groupPrivateZoneRecords records,
      p.2 ≠ [] ∧ ∀ r ∈ p.2, recordKey r = p.1 ∧ ':' ∉ r.typ := by
    intro p hp
    obtain ⟨hp2, hpne⟩ := mem_group_eq_filter hp
    refine ⟨hpne, ?_⟩
    intro r hr
    rw [hp2] at hr
    have hmf := List.mem_filter.mp hr
    exact ⟨of_decide_eq_true hmf.2, hcolon r hmf.1⟩
  have hmain := filter_map_groups z t h ht (groupPrivateZoneRecords records) hent
    (nodup_keys_group records) _ hlook
  simp only [listRecordsZone]
  rw [hmain]
  have hhead : (records.filter (fun r => recordKey r = t ++ ':' :: h)).headI
      ∈ records.filter (fun r => recordKey r = t ++ ':' :: h) := headI_mem hgne
  have hmf := List.mem_filter.mp hhead
  have hdec := recordKey_decode (hcolon _ hmf.1) ht (of_decide_eq_true hmf.2)
  rw [hfeq]
  simp only [endpointOfGroup, hdec.1, hdec.2]

def c1Records : List PZRecord :=
  [⟨gs "www", gs "A", gs "1.1.1.1", 300, gs "r1"⟩,
   ⟨gs "www", gs "A", gs "1.1.1.2", 300, gs "r2"⟩,
   ⟨gs "www", gs "A", gs "1.1.1.3", 300, gs "r3"⟩]

theorem read_path_groups_records_witness :
    ((∀ r ∈ c1Records, ':' ∉ r.typ) ∧
      (∃ r ∈ c1Records, r.typ = gs "A" ∧ r.host = gs "www")) ∧
    (listRecordsZone (gs "example.com") c1Records).filter
        (fun e => (e.dnsName == getDNSName (gs "www") (gs "example.com"))
          && (e.recordType == gs "A"))
      = [{ dnsName := getDNSName (gs "www") (gs "example.com")
           recordType := gs "A"
           targets := (c1Records.filter
               (fun r => r.typ = gs "A" ∧ r.host = gs "www")).map (fun r => r.value)
           recordTTL := (c1Records.filter
               (fun r => r.typ = gs "A" ∧ r.host = gs "www")).headI.ttl }] :=
  ⟨⟨by decide, by decide⟩,
    read_path_groups_records (gs "example.com") (gs "A") (gs "www") c1Records
      (by decide) (by decide)⟩

/-! ### C7: TXT values on the read path

In `ListRecordsByVPC` (privatezone.go, lines 307–313) the call
`unescapeTXTRecordValue` on TXT targets is commented out: targets are
collected verbatim from the stored record values. -/

/-- **C7 (counterexample).** A stored TXT record whose value begins with the
literal `heritage=` is returned by the read path unchanged (unquoted), even
though `unescapeTXTRecordValue` of that value would differ: the claim that the
read path wraps such values in double quotes is false on the code. -/
theorem read_path_txt_counterexample :
    (listRecordsZone (gs "example.com")
        [⟨gs "txt-owner", gs "TXT",
          gs "heritage=external-dns,external-dns/owner=default", 300, gs "r1"⟩]).map
        (fun e => e.targets)
      = [[gs "heritage=external-dns,external-dns/owner=default"]]
    ∧ unescapeTXTRecordValue (gs "heritage=external-dns,external-dns/owner=default")
      ≠ gs "heritage=external-dns,external-dns/owner=default" := by
  constructor
  · decide
  · decide

/-- **C7 (amended).** On the read path no value transformation is applied at
all: every target of every returned endpoint is the verbatim stored value of
some record of the zone (in particular TXT values beginning with `heritage=`
are returned unquoted; `unescapeTXTRecordValue` is applied only on the delete
path, not when reading records back). -/
theorem read_path_values_verbatim (z : GoStr) (records : List PZRecord)
    (e : Endpoint) (he : e ∈ listRecordsZone z records) :
    ∀ v ∈ e.targets, ∃ r ∈ records, v = r.value := by
  intro v hv
  simp only [listRecordsZone, List.mem_map] at he
  obtain ⟨kv, hkv, hkve⟩ := he
  obtain ⟨hfil, _⟩ := mem_group_eq_filter hkv
  rw [← hkve] at hv
  simp only [endpointOfGroup, List.mem_map] at hv
  obtain ⟨r, hr, hrv⟩ := hv
  rw [hfil] at hr
  exact ⟨r, (List.mem_filter.mp hr).1, hrv.symm⟩

theorem read_path_values_verbatim_witness :
    ({ dnsName := gs "txt-owner.example.com"
       recordType := gs "TXT"
       targets := [gs "heritage=external-dns,external-dns/owner=default"]
       recordTTL := 300 } : Endpoint) ∈ listRecordsZone (gs "example.com")
        [⟨gs "txt-owner", gs "TXT",
          gs "heritage=external-dns,external-dns/owner=default", 300, gs "r1"⟩]
    ∧ ∀ v ∈ ({ dnsName := gs "txt-owner.example.com"
               recordType := gs "TXT"
               targets := [gs "heritage=external-dns,external-dns/owner=default"]
               recordTTL := 300 } : Endpoint).targets,
        ∃ r ∈ [(⟨gs "txt-owner", gs "TXT",
            gs "heritage=external-dns,external-dns/owner=default", 300, gs "r1"⟩ : PZRecord)],
          v = r.value :=
  ⟨by decide,
    read_path_values_verbatim (gs "example.com")
      [⟨gs "txt-owner", gs "TXT",
        gs "heritage=external-dns,external-dns/owner=default", 300, gs "r1"⟩]
      _ (by decide)⟩

/-! ### Batch Executor (`BatchForEach`, utils.go) -/

/-- Remote/API errors, kept opaque. -/
abbrev GoErr := String

/-- The consecutive slices `items[i : i+batchSize]` visited by the
`BatchForEach` loop, for batch size `bm1 + 1`. -/
def chunkAux {T : Type} (bm1 : Nat) : List T → List (List T)
  | [] => []
  | x :: xs => (x :: xs.take bm1) :: chunkAux bm1 (xs.drop bm1)
termination_by l => l.length
decreasing_by
  simp only [List.length_drop, List.length_cons]
  omega

/-- The slices `items[i : i+b]` of the `BatchForEach` loop (meaningful for `b ≥ 1`). -/
def chunkList {T : Type} (b : Nat) (items : List T) : List (List T) :=
  chunkAux (b - 1) items

/-- The `for i := 0; i < n; i += batchSize` loop of `BatchForEach` (utils.go),
for batch size `bm1 + 1`, with the slices passed to `f` recorded as a trace.
A later error discards the accumulated results, exactly as the Go code
returns `nil, err`. -/
def batchGo {T R : Type} (f : List T → Except GoErr (List R)) (bm1 : Nat) :
    List T → List (List T) × Except GoErr (List R)
  | [] => ([], .ok [])
  | x :: xs =>
    let chunk := x :: xs.take bm1
    match f chunk with
    | .error e => ([chunk], .error e)
    | .ok part =>
      let rest := batchGo f bm1 (xs.drop bm1)
      (chunk :: rest.1,
        match rest.2 with
        | .error e => .error e
        | .ok tailRes => .ok (part ++ tailRes))
termination_by l => l.length
decreasing_by
  simp only [List.length_drop, List.length_cons]
  omega

/-- `BatchForEach` (utils.go) with its call trace: `batchSize <= 0` fails with
the `InvalidArgument` message before any call; an empty item list returns
`[]R{}` without calling `f`; otherwise the loop processes the slices. -/
def BatchForEachT {T R : Type} (items : List T) (batchSize : Int)
    (f : List T → Except GoErr (List R)) : List (List T) × Except GoErr (List R) :=
  if batchSize ≤ 0 then ([], .error (gs "batch size must be greater than 0").asString)
  else if items.length = 0 then ([], .ok [])
  else batchGo f (batchSize.toNat - 1) items

/-- `BatchForEach` (utils.go): the result component alone. -/
def BatchForEach {T R : Type} (items : List T) (batchSize : Int)
    (f : List T → Except GoErr (List R)) : Except GoErr (List R) :=
  (BatchForEachT items batchSize f).2

theorem chunkAux_flatten {T : Type} (bm1 : Nat) (l : List T) :
    (chunkAux bm1 l).flatten = l := by
  induction l using chunkAux.induct bm1 with
  | case1 => simp [chunkAux]
  | case2 x xs ih =>
    simp only [chunkAux]
    simp only [List.flatten_cons, ih]
    simp [List.take_append_drop]

theorem chunkAux_length {T : Type} (bm1 : Nat) (l : List T) :
    (chunkAux bm1 l).length = (l.length + bm1) / (bm1 + 1) := by
  induction l using chunkAux.induct bm1 with
  | case1 => simp [chunkAux, Nat.div_eq_of_lt]
  | case2 x xs ih =>
    simp only [chunkAux]
    simp only [List.length_cons, ih, List.length_drop]
    by_cases hlt : bm1 ≤ xs.length
    · have h1 : xs.length - bm1 + bm1 = xs.length := by omega
      have h2 : xs.length + 1 + bm1 = xs.length + (bm1 + 1) := by omega
      rw [h1, h2, Nat.add_div_right _ (Nat.succ_pos bm1)]
    · have h1 : xs.length - bm1 = 0 := by omega
      rw [h1]
      have h2 : (0 + bm1) / (bm1 + 1) = 0 := Nat.div_eq_of_lt (by omega)
      rw [h2]
      have h3 : (xs.length + 1 + bm1) / (bm1 + 1) = 1 := by
        apply Nat.div_eq_of_lt_le
        · omega
        · omega
      rw [h3]

theorem chunkAux_mem_length {T : Type} (bm1 : Nat) (l : List T) :
    ∀ c ∈ chunkAux bm1 l, c.length ≤ bm1 + 1 ∧ c ≠ [] := by
  induction l using chunkAux.induct bm1 with
  | case1 => simp [chunkAux]
  | case2 x xs ih =>
    simp only [chunkAux]
    intro c hc
    rcases List.mem_cons.mp hc with hhd | htl
    · subst hhd
      refine ⟨?_, by simp⟩
      simp only [List.length_cons, List.length_take]
      omega
    · exact ih c htl

theorem chunkAux_full_of_not_last {T : Type} (bm1 : Nat) (l : List T) :
    ∀ i, i + 1 < (chunkAux bm1 l).length →
      ∀ c, (chunkAux bm1 l).get? i = some c → c.length = bm1 + 1 := by
  induction l using chunkAux.induct bm1 with
  | case1 => intro i hi; simp [chunkAux] at hi
  | case2 x xs ih =>
    intro i hi c hc
    simp only [chunkAux] at hi hc
    cases i with
    | zero =>
      simp only [List.length_cons] at hi
      have hrest : chunkAux bm1 (xs.drop bm1) ≠ [] := by
        intro habs
        rw [habs] at hi
        simp at hi
      have hxs : xs.drop bm1 ≠ [] := by
        intro habs
        rw [habs] at hrest
        exact hrest (by simp [chunkAux])
      have hlen : bm1 < xs.length := by
        by_contra hno
        exact hxs (List.drop_eq_nil_of_le (by omega))
      have hcx : c = x :: xs.take bm1 := by
        simpa using hc.symm
      rw [hcx]
      simp only [List.length_cons, List.length_take]
      omega
    | succ j =>
      simp only [List.length_cons] at hi
      simp only [List.get?_cons_succ] at hc
      exact ih j (by omega) c hc

theorem batchGo_pure {T R : Type} (f : List T → List R) (bm1 : Nat) (l : List T) :
    batchGo (fun s => Except.ok (f s)) bm1 l
      = (chunkAux bm1 l, Except.ok ((chunkAux bm1 l).map f).flatten) := by
  induction l using chunkAux.induct bm1 with
  | case1 => simp [batchGo, chunkAux]
  | case2 x xs ih =>
    simp only [batchGo, chunkAux, ih]
    simp

theorem batchGo_error {T R : Type} (f : List T → Except GoErr (List R)) (bm1 : Nat)
    (l : List T) :
    ∀ (k : Nat) (ck : List T) (e : GoErr),
      (chunkAux bm1 l).get? k = some ck →
      (∀ c ∈ (chunkAux bm1 l).take k, ∃ r, f c = Except.ok r) →
      f ck = Except.error e →
      batchGo f bm1 l = ((chunkAux bm1 l).take (k + 1), Except.error e) := by
  induction l using chunkAux.induct bm1 with
  | case1 =>
    intro k ck e hk _ _
    simp [chunkAux] at hk
  | case2 x xs ih =>
    intro k ck e hk hok herr
    simp only [chunkAux] at hk hok ⊢
    cases k with
    | zero =>
      have hck : ck = x :: xs.take bm1 := by simpa using hk.symm
      rw [hck] at herr
      simp only [batchGo, herr, List.take_succ_cons, List.take_zero]
    | succ j =>
      have hfirst : ∃ r, f (x :: xs.take bm1) = Except.ok r := by
        apply hok
        simp [List.take_succ_cons]
      obtain ⟨r, hr⟩ := hfirst
      simp only [List.get?_cons_succ] at hk
      have hok' : ∀ c ∈ (chunkAux bm1 (xs.drop bm1)).take j, ∃ r, f c = Except.ok r := by
        intro c hc
        apply hok
        simp only [List.take_succ_cons, List.mem_cons]
        exact Or.inr hc
      have := ih j ck e hk hok' herr
      simp only [batchGo, hr, this, List.take_succ_cons]

/-- **C4.** For every `batchSize > 0` and every item list, `BatchForEach`
invokes the apply function exactly `ceil(n / batchSize)` times, on the
consecutive slices of the input in order — each nonempty, of length at most
`batchSize`, only the last possibly shorter, concatenating back to the input —
and returns the concatenation of the per-slice results in input order. -/
theorem batchForEach_spec {T R : Type} (items : List T) (b : Int) (hb : 0 < b)
    (f : List T → List R) :
    BatchForEachT items b (fun s => Except.ok (f s))
        = (chunkList b.toNat items,
            Except.ok ((chunkList b.toNat items).map f).flatten)
      ∧ (chunkList b.toNat items).length = (items.length + b.toNat - 1) / b.toNat
      ∧ (chunkList b.toNat items).flatten = items
      ∧ (∀ c ∈ chunkList b.toNat items, c.length ≤ b.toNat ∧ c ≠ [])
      ∧ (∀ i, i + 1 < (chunkList b.toNat items).length →
          ∀ c, (chunkList b.toNat items).get? i = some c → c.length = b.toNat) := by
  have hbn : 1 ≤ b.toNat := by omega
  have hb1 : b.toNat - 1 + 1 = b.toNat := by omega
  have hble : ¬(b ≤ 0) := by omega
  refine ⟨?_, ?_, ?_, ?_, ?_⟩
  · rw [BatchForEachT, if_neg hble]
    by_cases hnil : items.length = 0
    · have : items = [] := List.length_eq_zero.mp hnil
      subst this
      simp [chunkList, chunkAux]
    · rw [if_neg hnil, chunkList, batchGo_pure]
  · rw [chunkList, chunkAux_length, hb1]
    congr 1
    omega
  · rw [chunkList, chunkAux_flatten]
  · intro c hc
    have := chunkAux_mem_length (b.toNat - 1) items c hc
    rw [hb1] at this
    exact this
  · intro i hi c hc
    rw [chunkList] at hi hc
    rw [chunkAux_full_of_not_last (b.toNat - 1) items i hi c hc, hb1]

theorem batchForEach_spec_witness :
    (0 : Int) < 2 ∧
    (BatchForEachT [1, 2, 3, 4, 5] 2 (fun s : List Nat => Except.ok (s.map (fun n => n * 2)))
        = (chunkList (2 : Int).toNat [1, 2, 3, 4, 5],
            Except.ok ((chunkList (2 : Int).toNat [1, 2, 3, 4, 5]).map
              (fun s => s.map (fun n => n * 2))).flatten)
      ∧ (chunkList (2 : Int).toNat [1, 2, 3, 4, 5]).length
          = (([1, 2, 3, 4, 5] : List Nat).length + (2 : Int).toNat - 1) / (2 : Int).toNat
      ∧ (chunkList (2 : Int).toNat [1, 2, 3, 4, 5]).flatten = [1, 2, 3, 4, 5]
      ∧ (∀ c ∈ chunkList (2 : Int).toNat [1, 2, 3, 4, 5],
          c.length ≤ (2 : Int).toNat ∧ c ≠ [])
      ∧ (∀ i, i + 1 < (chunkList (2 : Int).toNat [1, 2, 3, 4, 5]).length →
          ∀ c, (chunkList (2 : Int).toNat [1, 2, 3, 4, 5]).get? i = some c →
            c.length = (2 : Int).toNat)) :=
  ⟨by decide,
    batchForEach_spec [1, 2, 3, 4, 5] 2 (by decide) (fun s => s.map (fun n => n * 2))⟩

/-- **C10.** `BatchForEach` returns the `InvalidArgument` error without invoking
the apply function when `batchSize <= 0` (empty trace, for every input list);
and for `batchSize > 0`, on the first slice on which the apply function errors,
it returns that error immediately: the trace stops at the failing slice (no
later slice is passed to `f`) and no partial results are returned — the result
is the bare error, earlier slices are not revisited. -/
theorem batchForEach_error_behavior {T R : Type} :
    (∀ (items : List T) (b : Int) (f : List T → Except GoErr (List R)), b ≤ 0 →
        BatchForEachT items b f
          = ([], Except.error (gs "batch size must be greater than 0").asString))
    ∧ (∀ (items : List T) (b : Int) (f : List T → Except GoErr (List R)) (k : Nat)
          (ck : List T) (e : GoErr), 0 < b →
        (chunkList b.toNat items).get? k = some ck →
        (∀ c ∈ (chunkList b.toNat items).take k, ∃ r, f c = Except.ok r) →
        f ck = Except.error e →
        BatchForEachT items b f
          = ((chunkList b.toNat items).take (k + 1), Except.error e)) := by
  constructor
  · intro items b f hb
    rw [BatchForEachT, if_pos hb]
  · intro items b f k ck e hb hk hok herr
    have hble : ¬(b ≤ 0) := by omega
    rw [BatchForEachT, if_neg hble]
    by_cases hnil : items.length = 0
    · exfalso
      have : items = [] := List.length_eq_zero.mp hnil
      subst this
      simp [chunkList, chunkAux] at hk
    · rw [if_neg hnil]
      exact batchGo_error f (b.toNat - 1) items k ck e hk hok herr

def c10f : List Nat → Except GoErr (List Nat) :=
  fun c => if c = [3, 4] then Except.error "boom" else Except.ok c

theorem batchForEach_error_witness :
    ((0 : Int) ≤ 0 ∧
      BatchForEachT [1, 2, 3] (0 : Int) c10f
        = ([], Except.error (gs "batch size must be greater than 0").asString))
    ∧ ((0 : Int) < 2
      ∧ (chunkList (2 : Int).toNat [1, 2, 3, 4]).get? 1 = some [3, 4]
      ∧ (∀ c ∈ (chunkList (2 : Int).toNat [1, 2, 3, 4]).take 1, ∃ r, c10f c = Except.ok r)
      ∧ c10f [3, 4] = Except.error "boom"
      ∧ BatchForEachT [1, 2, 3, 4] 2 c10f
          = ((chunkList (2 : Int).toNat [1, 2, 3, 4]).take 2, Except.error "boom")) := by
  have hok : ∀ c ∈ (chunkList (2 : Int).toNat [1, 2, 3, 4]).take 1,
      ∃ r, c10f c = Except.ok r := by
    intro c hc
    have hc2 : c = [1, 2] := by
      simpa [chunkList, chunkAux] using hc
    subst hc2
    exact ⟨[1, 2], rfl⟩
  have hget : (chunkList (2 : Int).toNat [1, 2, 3, 4]).get? 1 = some [3, 4] := by
    simp [chunkList, chunkAux]
  refine ⟨⟨le_refl 0, batchForEach_error_behavior.1 [1, 2, 3] 0 c10f (le_refl 0)⟩,
    by decide, hget, hok, rfl,
    batchForEach_error_behavior.2 [1, 2, 3, 4] 2 c10f 1 [3, 4] "boom" (by decide) hget hok rfl⟩

/-! ### Paginated Lister (`QueryAll`, utils.go) -/

/-- One page of a paginated listing: the returned data and the reported total. -/
structure PageResult (T : Type) where
  data : List T
  total : Int

/-- The `for` loop of `QueryAll` (utils.go), with a fuel bound (the Go loop can
diverge for adversarial query functions; `none` means the fuel ran out) and
the queried page numbers recorded in order. -/
def queryLoop {T : Type} (query : Int → Int → Except GoErr (PageResult T))
    (pageSize : Int) :
    Nat → Int → List T → List Int → Option (List Int × Except GoErr (List T))
  | 0, _, _, _ => none
  | fuel + 1, pageNum, acc, pages =>
    match query pageNum pageSize with
    | .error e => some (pages ++ [pageNum], .error e)
    | .ok r =>
      let acc2 := acc ++ r.data
      if pageNum * pageSize ≥ r.total then some (pages ++ [pageNum], .ok acc2)
      else queryLoop query pageSize fuel (pageNum + 1) acc2 (pages ++ [pageNum])

/-- `QueryAll` (utils.go): non-positive page size fails with the
`InvalidArgument` message before any query call; otherwise the loop starts at
page 1 with an empty accumulator. -/
def QueryAllT {T : Type} (pageSize : Int)
    (query : Int → Int → Except GoErr (PageResult T)) (fuel : Nat) :
    Option (List Int × Except GoErr (List T)) :=
  if pageSize ≤ 0 then
    some ([], Except.error (gs "pageSize must be greater than 0").asString)
  else queryLoop query pageSize fuel 1 [] []

/-- A well-behaved query function: constant reported `total`, page `p` holding
the items `f i` for `i ∈ [(p-1)*pageSize, min(p*pageSize, total))` — pages of
the remaining size. -/
def constTotalQuery {T : Type} (total : Nat) (f : Nat → T)
    (pageNum pageSize : Int) : Except GoErr (PageResult T) :=
  let start := ((pageNum - 1) * pageSize).toNat
  let stop := min (start + pageSize.toNat) total
  Except.ok ⟨(List.range' start (stop - start)).map f, (total : Int)⟩

/-- Number of pages the loop visits for a constant total: at least one page is
always requested, then `ceil(total / pageSize)`. -/
def pageCount (pn total : Nat) : Nat :=
  if total = 0 then 1 else (total + pn - 1) / pn

theorem pageCount_le_of_le {pn total k : Nat} (hpn : 0 < pn) (hk : 1 ≤ k)
    (h : total ≤ k * pn) : pageCount pn total ≤ k := by
  rw [pageCount]
  by_cases h0 : total = 0
  · rw [if_pos h0]
    exact hk
  · rw [if_neg h0]
    rw [Nat.lt_succ_iff.symm, Nat.div_lt_iff_lt_mul hpn, Nat.succ_mul]
    omega

theorem lt_pageCount_of_lt {pn total k : Nat} (hpn : 0 < pn)
    (h : k * pn < total) : k + 1 ≤ pageCount pn total := by
  rw [pageCount]
  have h0 : total ≠ 0 := by omega
  rw [if_neg h0, Nat.le_div_iff_mul_le hpn, Nat.succ_mul]
  omega

theorem range_map_append_range' {T : Type} (f : Nat → T) (s t : Nat) (h : s ≤ t) :
    (List.range s).map f ++ (List.range' s (t - s)).map f = (List.range t).map f := by
  rw [← List.map_append]
  congr 1
  rw [List.range_eq_range', List.range_eq_range']
  have happ := List.range'_append 0 s (t - s) 1
  simp only [Nat.one_mul, Nat.zero_add] at happ
  rw [happ]
  congr 1
  omega

/-- The page numbers `s, s+1, …, s+n-1` as integers. -/
def intPages (s n : Nat) : List Int :=
  (List.range' s n).map Int.ofNat

theorem intPages_one (s : Nat) : intPages s 1 = [(s : Int)] := by
  rw [intPages, List.range'_succ]
  rfl

theorem intPages_succ (s n : Nat) : intPages s (n + 1) = (s : Int) :: intPages (s + 1) n := by
  rw [intPages, List.range'_succ, List.map_cons, intPages]
  rfl

theorem queryLoop_const {T : Type} (p : Int) (total : Nat) (f : Nat → T) (hp : 0 < p) :
    ∀ (fuel k : Nat) (pages : List Int),
      1 ≤ k → k ≤ pageCount p.toNat total →
      (k = 1 ∨ (k - 1) * p.toNat < total) →
      pageCount p.toNat total + 1 - k ≤ fuel →
      queryLoop (constTotalQuery total f) p fuel (k : Int)
          ((List.range ((k - 1) * p.toNat)).map f) pages
        = some (pages ++ intPages k (pageCount p.toNat total + 1 - k),
            Except.ok ((List.range total).map f)) := by
  intro fuel
  induction fuel with
  | zero =>
    intro k pages hk1 hkK hentry hfuel
    exfalso
    have h1 : pageCount p.toNat total + 1 - k = 0 := Nat.le_zero.mp hfuel
    have h2 : k ≤ pageCount p.toNat total := hkK
    omega
  | succ fuel ih =>
    intro k pages hk1 hkK hentry hfuel
    have hpn0 : 0 < p.toNat := by omega
    have hpcast : p = (p.toNat : Int) := by omega
    have hstart : (((k : Int) - 1) * p).toNat = (k - 1) * p.toNat := by
      have h1 : ((k : Int) - 1) = ((k - 1 : Nat) : Int) := by omega
      rw [h1]
      nth_rewrite 1 [hpcast]
      rw [← Nat.cast_mul]
      exact Int.toNat_natCast _
    have hsle : (k - 1) * p.toNat ≤ total := by
      rcases hentry with h | h
      · subst h
        simp
      · omega
    have hkpn : k * p.toNat = (k - 1) * p.toNat + p.toNat := by
      obtain ⟨k', rfl⟩ : ∃ k', k = k' + 1 := ⟨k - 1, by omega⟩
      simp [Nat.succ_mul]
    have hcond : ((k : Int) * p ≥ ((total : Nat) : Int)) ↔ total ≤ k * p.toNat := by
      rw [ge_iff_le, hpcast, ← Nat.cast_mul]
      exact Nat.cast_le
    rw [queryLoop]
    simp only [constTotalQuery, hstart]
    by_cases hdone : total ≤ k * p.toNat
    · rw [if_pos (hcond.mpr hdone)]
      have hstop : min ((k - 1) * p.toNat + p.toNat) total = total := by omega
      have hK : pageCount p.toNat total = k :=
        Nat.le_antisymm (pageCount_le_of_le hpn0 hk1 hdone) hkK
      have hKk : pageCount p.toNat total + 1 - k = 1 := by omega
      rw [hstop, hKk, range_map_append_range' f _ total hsle, intPages_one]
    · have hlt : k * p.toNat < total := by omega
      rw [if_neg (fun hge => hdone (hcond.mp hge))]
      have hstop : min ((k - 1) * p.toNat + p.toNat) total = k * p.toNat := by omega
      rw [hstop]
      have hacc : (List.range ((k - 1) * p.toNat)).map f
            ++ (List.range' ((k - 1) * p.toNat) (k * p.toNat - (k - 1) * p.toNat)).map f
          = (List.range (k * p.toNat)).map f :=
        range_map_append_range' f ((k - 1) * p.toNat) (k * p.toNat) (by omega)
      rw [hacc]
      have hcast : ((k : Int) + 1) = ((k + 1 : Nat) : Int) := by omega
      rw [hcast]
      have hih := ih (k + 1) (pages ++ [(k : Int)]) (by omega)
        (lt_pageCount_of_lt hpn0 hlt) (Or.inr (by simpa using hlt)) (by omega)
      simp only [Nat.add_sub_cancel] at hih
      rw [hih]
      have hsplit : pageCount p.toNat total + 1 - k
          = (pageCount p.toNat total + 1 - (k + 1)) + 1 := by
        have := lt_pageCount_of_lt hpn0 hlt
        omega
      rw [hsplit, intPages_succ, List.append_assoc]
      rfl

theorem pageCount_pos {pn total : Nat} (hpn : 0 < pn) : 1 ≤ pageCount pn total := by
  rw [pageCount]
  by_cases h0 : total = 0
  · rw [if_pos h0]
  · rw [if_neg h0, Nat.le_div_iff_mul_le hpn]
    omega

/-- **C5.** For every `pageSize > 0`, `QueryAll` returns exactly `total` items
when the query function reports a constant total and pages of the remaining
size: the queried pages are `1, 2, …` in ascending order, one query per page,
stopping at the first page `K` with `K * pageSize ≥ total` (for `total = 0`
this is a single query call returning an empty result); for `pageSize ≤ 0` it
returns the `InvalidArgument` error without calling the query function. -/
theorem queryAll_spec {T : Type} (p : Int) (total : Nat) (f : Nat → T)
    (q : Int → Int → Except GoErr (PageResult T)) (fuel : Nat) :
    (p ≤ 0 → QueryAllT p q fuel
        = some ([], Except.error (gs "pageSize must be greater than 0").asString))
    ∧ (0 < p → pageCount p.toNat total ≤ fuel →
        QueryAllT p (constTotalQuery total f) fuel
          = some (intPages 1 (pageCount p.toNat total),
              Except.ok ((List.range total).map f))) := by
  constructor
  · intro hple
    rw [QueryAllT, if_pos hple]
  · intro hp hfuel
    rw [QueryAllT, if_neg (by omega)]
    have hpn0 : 0 < p.toNat := by omega
    have h := queryLoop_const p total f hp fuel 1 [] (le_refl 1)
      (pageCount_pos hpn0) (Or.inl rfl) (by omega)
    simp only [Nat.sub_self, Nat.zero_mul, List.range_zero, List.map_nil,
      Nat.cast_one, Nat.add_sub_cancel, List.nil_append] at h
    exact h

theorem queryAll_spec_witness :
    ((0 : Int) ≤ 0 ∧
      QueryAllT 0 (constTotalQuery 100 (fun n => n)) 10
        = some ([], Except.error (gs "pageSize must be greater than 0").asString))
    ∧ ((0 : Int) < 20 ∧ pageCount (20 : Int).toNat 100 ≤ 10 ∧
      QueryAllT 20 (constTotalQuery 100 (fun n => n)) 10
        = some (intPages 1 (pageCount (20 : Int).toNat 100),
            Except.ok ((List.range 100).map (fun n => n)))) :=
  ⟨⟨le_refl 0,
      (queryAll_spec 0 100 (fun n => n) (constTotalQuery 100 (fun n => n)) 10).1 (le_refl 0)⟩,
    ⟨by decide, by decide,
      (queryAll_spec 20 100 (fun n => n) (constTotalQuery 100 (fun n => n)) 10).2
        (by decide) (by decide)⟩⟩

/-! ### Record Store Client delete path (`DeletePrivateZoneRecord`, privatezone.go) -/

/-- Modelled from the spec: `normalizeDomain`, called on CNAME values by
`DeletePrivateZoneRecord` (privatezone.go line 703), is not among the provided
sources; spec §4.5 states CNAME values are dot-stripped before the target-set
comparison, so it strips the single trailing dot. -/
def normalizeDomain (value : GoStr) : GoStr :=
  goTrimSuffix value ['.']

/-- The value a stored record is compared under in `DeletePrivateZoneRecord`
(privatezone.go): TXT values are un-escaped, CNAME values dot-stripped. -/
def deleteCompareValue (r : PZRecord) : GoStr :=
  let v1 := if r.typ == gs "TXT" then unescapeTXTRecordValue r.value else r.value
  if r.typ == gs "CNAME" then normalizeDomain v1 else v1

/-- The record-selection loop of `DeletePrivateZoneRecord` (privatezone.go):
records whose host and type equal the arguments and whose normalized value is
among `targets` contribute their record IDs, in listing order. -/
def deleteSelectedIDs (records : List PZRecord) (host typ : GoStr)
    (targets : List GoStr) : List GoStr :=
  (records.filter (fun r =>
      (host == r.host) && (typ == r.typ)
        && targets.contains (deleteCompareValue r))).map
    (fun r => r.recordID)

/-- `DeletePrivateZoneRecord` (privatezone.go): list, filter, then batch-delete
by record ID via `BatchForEach` with the default batch size 100.  The record
listing is the given snapshot; the remote batch-delete is the `client` oracle;
the issued batch-delete calls (one ID list per chunk) are returned as a trace.
When no record matches, the function logs and returns success without issuing
any delete call. -/
def DeletePrivateZoneRecord (client : List GoStr → Except GoErr Unit)
    (records : List PZRecord) (host typ : GoStr) (targets : List GoStr) :
    List (List GoStr) × Except GoErr Unit :=
  let recordIDs := deleteSelectedIDs records host typ targets
  if recordIDs.length = 0 then ([], Except.ok ())
  else
    let r := BatchForEachT recordIDs 100 (fun ids => (client ids).map (fun _ => ids))
    (r.1, r.2.map (fun _ => ()))

/-- `BatchForEach` under an always-succeeding apply function (helper shared by
several claims). -/
theorem batchForEachT_ok {T R : Type} (items : List T) (b : Int) (hb : 0 < b)
    (f : List T → List R) :
    BatchForEachT items b (fun s => Except.ok (f s))
      = (chunkList b.toNat items,
          Except.ok ((chunkList b.toNat items).map f).flatten) := by
  rw [BatchForEachT, if_neg (by omega)]
  by_cases hnil : items.length = 0
  · have : items = [] := List.length_eq_zero.mp hnil
    subst this
    simp [chunkList, chunkAux]
  · rw [if_neg hnil, chunkList, batchGo_pure]

/-- **C2.** `DeletePrivateZoneRecord(zoneID, host, type, targets)` lists the
zone's records, selects exactly those whose host and type equal the arguments
and whose value — after un-escaping TXT values and dot-stripping CNAME
values — is a member of `targets`, and batch-deletes the selected records by
record ID (the issued batch-delete ID lists concatenate to exactly the
selected IDs, in listing order); when no record matches it returns success
without issuing any delete call. -/
theorem deleteRecord_spec (records : List PZRecord) (host typ : GoStr)
    (targets : List GoStr) :
    ((DeletePrivateZoneRecord (fun _ => Except.ok ()) records host typ targets).1.flatten
        = (records.filter (fun r => (host == r.host) && (typ == r.typ)
            && targets.contains (deleteCompareValue r))).map (fun r => r.recordID))
    ∧ (DeletePrivateZoneRecord (fun _ => Except.ok ()) records host typ targets).2
        = Except.ok ()
    ∧ (records.filter (fun r => (host == r.host) && (typ == r.typ)
          && targets.contains (deleteCompareValue r)) = [] →
        ∀ (client : List GoStr → Except GoErr Unit),
          DeletePrivateZoneRecord client records host typ targets
            = ([], Except.ok ())) := by
  by_cases hnil : (deleteSelectedIDs records host typ targets).length = 0
  · have hsel0 : deleteSelectedIDs records host typ targets = [] :=
      List.length_eq_zero.mp hnil
    have hfil : records.filter (fun r => (host == r.host) && (typ == r.typ)
        && targets.contains (deleteCompareValue r)) = [] :=
      List.map_eq_nil_iff.mp hsel0
    refine ⟨?_, ?_, ?_⟩
    · simp only [DeletePrivateZoneRecord, if_pos hnil, hfil]
      simp
    · simp only [DeletePrivateZoneRecord, if_pos hnil]
    · intro _ client
      simp only [DeletePrivateZoneRecord, if_pos hnil]
  · have hconv : BatchForEachT (deleteSelectedIDs records host typ targets) (100 : Int)
          (fun ids => (((fun _ => Except.ok ()) : List GoStr → Except GoErr Unit) ids).map
            (fun _ => ids))
        = (chunkList (100 : Int).toNat (deleteSelectedIDs records host typ targets),
            Except.ok ((chunkList (100 : Int).toNat
              (deleteSelectedIDs records host typ targets)).map id).flatten) :=
      batchForEachT_ok (deleteSelectedIDs records host typ targets) 100 (by norm_num) id
    refine ⟨?_, ?_, ?_⟩
    · simp only [DeletePrivateZoneRecord, if_neg hnil, hconv]
      rw [chunkList, chunkAux_flatten]
      rfl
    · simp only [DeletePrivateZoneRecord, if_neg hnil, hconv]
      rfl
    · intro hf client
      exfalso
      apply hnil
      rw [deleteSelectedIDs, hf]
      rfl

def c2Records : List PZRecord :=
  [⟨gs "www", gs "A", gs "1.2.3.4", 300, gs "r1"⟩,
   ⟨gs "www", gs "A", gs "5.6.7.8", 300, gs "r2"⟩,
   ⟨gs "api", gs "A", gs "1.2.3.4", 300, gs "r3"⟩]

theorem deleteRecord_spec_witness :
    ((DeletePrivateZoneRecord (fun _ => Except.ok ()) c2Records (gs "www") (gs "A")
          [gs "1.2.3.4"]).1.flatten
        = (c2Records.filter (fun r => (gs "www" == r.host) && (gs "A" == r.typ)
            && [gs "1.2.3.4"].contains (deleteCompareValue r))).map (fun r => r.recordID))
    ∧ (DeletePrivateZoneRecord (fun _ => Except.ok ()) c2Records (gs "www") (gs "A")
          [gs "1.2.3.4"]).2 = Except.ok ()
    ∧ (c2Records.filter (fun r => (gs "www" == r.host) && (gs "A" == r.typ)
          && [gs "1.2.3.4"].contains (deleteCompareValue r)) = [] →
        ∀ (client : List GoStr → Except GoErr Unit),
          DeletePrivateZoneRecord client c2Records (gs "www") (gs "A") [gs "1.2.3.4"]
            = ([], Except.ok ())) :=
  deleteRecord_spec c2Records (gs "www") (gs "A") [gs "1.2.3.4"]

/-! ### Reconciler write path (`applyChangesForPrivateZone` and helpers,
provider code of the repository snapshot)

Zone IDs are modelled as integers; the Go code's decimal formatting/parsing
of IDs (`strconv.FormatInt` / `ParseInt`) is treated as the identity
correspondence. -/

/-- `plan.Changes` as consumed by `ApplyChanges`. -/
structure Changes where
  create : List Endpoint
  updateOld : List Endpoint
  updateNew : List Endpoint
  delete : List Endpoint

/-- `RecordForBatchCreateRecordInput` as built by `createPrivateZoneRecords`. -/
structure CreateRecord where
  host : GoStr
  typ : GoStr
  value : GoStr
  ttl : Option Int
  remark : GoStr
deriving DecidableEq, Repr

/-- A remote mutation issued by the write path. -/
inductive PZCall where
  | deleteRecord (zid : Int) (host typ : GoStr) (targets : List GoStr)
  | batchCreate (zid : Int) (records : List CreateRecord)
deriving DecidableEq, Repr

def PZCall.isDeleteRecord : PZCall → Bool
  | .deleteRecord _ _ _ _ => true
  | .batchCreate _ _ => false

def PZCall.isBatchCreate : PZCall → Bool
  | .deleteRecord _ _ _ _ => false
  | .batchCreate _ _ => true

/-- The remote store's responses, as oracles. -/
structure PZClientSpec where
  listZonesResult : Except GoErr (List PZZone)
  deleteRecordResult : Int → GoStr → GoStr → List GoStr → Except GoErr Unit
  batchCreateResult : Int → List CreateRecord → Except GoErr (List GoStr)

/-- Modelled from the spec: the suffix test of `findOwningZone` — the zone
name is a suffix of (or equal to) the DNS name (spec §4.4; the implementation
delegates to the external-dns library's `ZoneIDName.FindZone`, whose source is
not part of this repository). -/
def zoneMatches (fqdn zoneName : GoStr) : Bool :=
  (fqdn == zoneName) || goEndsWith fqdn zoneName

/-- Modelled from the spec: `findOwningZone(fqdn, zoneMap)` selects, among the
zones whose name is a suffix of `fqdn` (or equal to it), one with the longest
name; `none` when no zone matches (spec §4.4; used at the `FindZone` call
sites of `separateCreateChange` and `deletePrivateZoneRecords`). -/
def findZone (zoneMap : List (Int × GoStr)) (fqdn : GoStr) : Option (Int × GoStr) :=
  zoneMap.foldl
    (fun best z =>
      if zoneMatches fqdn z.2 then
        match best with
        | none => some z
        | some b => if b.2.length < z.2.length then some z else some b
      else best)
    none

/-- Go map append `m[k] = append(m[k], e)`: extend the bucket of `k`, adding
the bucket if absent. -/
def appendAt (m : List (Int × List Endpoint)) (k : Int) (e : Endpoint) :
    List (Int × List Endpoint) :=
  match m with
  | [] => [(k, [e])]
  | (k', l) :: rest =>
    if k' = k then (k', l ++ [e]) :: rest else (k', l) :: appendAt rest k e

/-- `separateCreateChange` (provider code): one empty bucket per zone, then
each endpoint goes to the bucket of its owning zone; endpoints with no owning
zone are skipped (logged only, no error). -/
def separateCreateChange (zoneMap : List (Int × GoStr)) (endpoints : List Endpoint) :
    List (Int × List Endpoint) :=
  endpoints.foldl
    (fun acc ep =>
      match findZone zoneMap ep.dnsName with
      | some z => appendAt acc z.1 ep
      | none => acc)
    (zoneMap.map (fun z => (z.1, ([] : List Endpoint))))

/-- `zoneMap[zone]` lookup. -/
def zoneNameOf (zoneMap : List (Int × GoStr)) (zid : Int) : GoStr :=
  match zoneMap with
  | [] => []
  | (k, n) :: rest => if k = zid then n else zoneNameOf rest zid

/-- The inner endpoint loop of `deletePrivateZoneRecords` (provider code) for
one zone: split each DNS name against the zone name, issue one
`DeletePrivateZoneRecord` call per endpoint, abort on the first error. -/
def deleteEpLoop (client : PZClientSpec) (zid : Int) (zoneName : GoStr) :
    List Endpoint → List PZCall × Except GoErr Unit
  | [] => ([], Except.ok ())
  | ep :: rest =>
    let hostDomain := splitDNSName ep.dnsName zoneName
    let call := PZCall.deleteRecord zid hostDomain.1 ep.recordType ep.targets
    match client.deleteRecordResult zid hostDomain.1 ep.recordType ep.targets with
    | .error e => ([call], .error e)
    | .ok _ =>
      let rest' := deleteEpLoop client zid zoneName rest
      (call :: rest'.1, rest'.2)

/-- The per-zone loop of `deletePrivateZoneRecords` (provider code): skip empty
buckets, abort the remaining zones on the first error.  (The Go code also
seeds the bucket map with zone-name keys holding empty lists; those are
skipped by the `len == 0` guard, so they are omitted here.) -/
def deleteZoneLoop (client : PZClientSpec) (zoneMap : List (Int × GoStr)) :
    List (Int × List Endpoint) → List PZCall × Except GoErr Unit
  | [] => ([], Except.ok ())
  | (zid, deletes) :: rest =>
    if deletes.length = 0 then deleteZoneLoop client zoneMap rest
    else
      let r := deleteEpLoop client zid (zoneNameOf zoneMap zid) deletes
      match r.2 with
      | .error e => (r.1, .error e)
      | .ok _ =>
        let r2 := deleteZoneLoop client zoneMap rest
        (r.1 ++ r2.1, r2.2)

/-- `deletePrivateZoneRecords` (provider code). -/
def deletePrivateZoneRecordsT (client : PZClientSpec) (zoneMap : List (Int × GoStr))
    (endpoints : List Endpoint) : List PZCall × Except GoErr Unit :=
  deleteZoneLoop client zoneMap (separateCreateChange zoneMap endpoints)

/-- The record construction of `createPrivateZoneRecords` (provider code): one
record per target of each endpoint, skipping targets whose DNS name does not
split against the zone (empty domain); TXT values are escaped; TTL is set only
when positive; the fixed remark is attached. -/
def buildCreateRecords (zoneName : GoStr) (eps : List Endpoint) : List CreateRecord :=
  (eps.map (fun ep =>
    ep.targets.filterMap (fun target =>
      let hostDomain := splitDNSName ep.dnsName zoneName
      if hostDomain.2 = [] then none
      else
        some { host := hostDomain.1
               typ := ep.recordType
               value := if ep.recordType == gs "TXT" then escapeTXTRecordValue target
                 else target
               ttl := if 0 < ep.recordTTL then some ep.recordTTL else none
               remark := gs "managed by external-dns" }))).flatten

/-- `BatchCreatePrivateZoneRecord` (privatezone.go): chunk the records with the
default batch size 100 and issue one batch-create call per chunk. -/
def batchCreateT (client : PZClientSpec) (zid : Int) (records : List CreateRecord) :
    List PZCall × Except GoErr Unit :=
  let r := BatchForEachT records 100 (fun chunk => client.batchCreateResult zid chunk)
  (r.1.map (fun chunk => PZCall.batchCreate zid chunk), r.2.map (fun _ => ()))

/-- The per-zone loop of `createPrivateZoneRecords` (provider code): build each
zone's record list, skip empty ones, batch-create per zone, abort on the first
error. -/
def createZoneLoop (client : PZClientSpec) (zoneMap : List (Int × GoStr)) :
    List (Int × List Endpoint) → List PZCall × Except GoErr Unit
  | [] => ([], Except.ok ())
  | (zid, eps) :: rest =>
    let records := buildCreateRecords (zoneNameOf zoneMap zid) eps
    if records.length = 0 then createZoneLoop client zoneMap rest
    else
      let r := batchCreateT client zid records
      match r.2 with
      | .error e => (r.1, .error e)
      | .ok _ =>
        let r2 := createZoneLoop client zoneMap rest
        (r.1 ++ r2.1, r2.2)

/-- `createPrivateZoneRecords` (provider code), including its empty-input early
return. -/
def createPrivateZoneRecordsT (client : PZClientSpec) (zoneMap : List (Int × GoStr))
    (endpoints : List Endpoint) : List PZCall × Except GoErr Unit :=
  if endpoints.length = 0 then ([], Except.ok ())
  else createZoneLoop client zoneMap (separateCreateChange zoneMap endpoints)

/-- The `if len(toDelete) > 0` guard of `applyChangesForPrivateZone`. -/
def applyDeletePhase (client : PZClientSpec) (zoneMap : List (Int × GoStr))
    (toDelete : List Endpoint) : List PZCall × Except GoErr Unit :=
  if 0 < toDelete.length then deletePrivateZoneRecordsT client zoneMap toDelete
  else ([], Except.ok ())

/-- The `if len(toCreate) > 0` guard of `applyChangesForPrivateZone`. -/
def applyCreatePhase (client : PZClientSpec) (zoneMap : List (Int × GoStr))
    (toCreate : List Endpoint) : List PZCall × Except GoErr Unit :=
  if 0 < toCreate.length then createPrivateZoneRecordsT client zoneMap toCreate
  else ([], Except.ok ())

/-- `applyChangesForPrivateZone` (provider code): list the VPC's zones, build
the zone map, apply deletions (`Delete` then `UpdateOld`) and then creations
(`Create` then `UpdateNew`); a delete-phase error returns before the create
phase starts. -/
def applyChangesForPrivateZoneT (client : PZClientSpec) (changes : Changes) :
    List PZCall × Except GoErr Unit :=
  match client.listZonesResult with
  | .error e => ([], .error e)
  | .ok vpcZones =>
    let zoneMap := vpcZones.map (fun z => (z.zid, z.zoneName))
    let del := applyDeletePhase client zoneMap (changes.delete ++ changes.updateOld)
    match del.2 with
    | .error e => (del.1, .error e)
    | .ok _ =>
      let cre := applyCreatePhase client zoneMap (changes.create ++ changes.updateNew)
      (del.1 ++ cre.1, cre.2)

theorem deleteEpLoop_kinds (client : PZClientSpec) (zid : Int) (zoneName : GoStr) :
    ∀ eps, ∀ c ∈ (deleteEpLoop client zid zoneName eps).1, c.isDeleteRecord = true := by
  intro eps
  induction eps with
  | nil => intro c hc; simp [deleteEpLoop] at hc
  | cons ep rest ih =>
    intro c hc
    simp only [deleteEpLoop] at hc
    rcases hr : client.deleteRecordResult zid (splitDNSName ep.dnsName zoneName).1
        ep.recordType ep.targets with e | u
    · rw [hr] at hc
      simp only [List.mem_singleton] at hc
      rw [hc]
      rfl
    · rw [hr] at hc
      simp only [List.mem_cons] at hc
      rcases hc with hc | hc
      · rw [hc]
        rfl
      · exact ih c hc

theorem deleteZoneLoop_kinds (client : PZClientSpec) (zoneMap : List (Int × GoStr)) :
    ∀ buckets, ∀ c ∈ (deleteZoneLoop client zoneMap buckets).1,
      c.isDeleteRecord = true := by
  intro buckets
  induction buckets with
  | nil => intro c hc; simp [deleteZoneLoop] at hc
  | cons b rest ih =>
    intro c hc
    obtain ⟨zid, deletes⟩ := b
    simp only [deleteZoneLoop] at hc
    by_cases hlen : deletes.length = 0
    · rw [if_pos hlen] at hc
      exact ih c hc
    · rw [if_neg hlen] at hc
      rcases hr : (deleteEpLoop client zid (zoneNameOf zoneMap zid) deletes).2 with e | u
      · rw [hr] at hc
        exact deleteEpLoop_kinds client zid (zoneNameOf zoneMap zid) deletes c hc
      · rw [hr] at hc
        simp only [List.mem_append] at hc
        rcases hc with hc | hc
        · exact deleteEpLoop_kinds client zid (zoneNameOf zoneMap zid) deletes c hc
        · exact ih c hc

theorem batchCreateT_kinds (client : PZClientSpec) (zid : Int)
    (records : List CreateRecord) :
    ∀ c ∈ (batchCreateT client zid records).1, c.isBatchCreate = true := by
  intro c hc
  simp only [batchCreateT, List.mem_map] at hc
  obtain ⟨chunk, _, hchunk⟩ := hc
  rw [← hchunk]
  rfl

theorem createZoneLoop_kinds (client : PZClientSpec) (zoneMap : List (Int × GoStr)) :
    ∀ buckets, ∀ c ∈ (createZoneLoop client zoneMap buckets).1,
      c.isBatchCreate = true := by
  intro buckets
  induction buckets with
  | nil => intro c hc; simp [createZoneLoop] at hc
  | cons b rest ih =>
    intro c hc
    obtain ⟨zid, eps⟩ := b
    simp only [createZoneLoop] at hc
    by_cases hlen : (buildCreateRecords (zoneNameOf zoneMap zid) eps).length = 0
    · rw [if_pos hlen] at hc
      exact ih c hc
    · rw [if_neg hlen] at hc
      rcases hr : (batchCreateT client zid
          (buildCreateRecords (zoneNameOf zoneMap zid) eps)).2 with e | u
      · rw [hr] at hc
        exact batchCreateT_kinds client zid _ c hc
      · rw [hr] at hc
        simp only [List.mem_append] at hc
        rcases hc with hc | hc
        · exact batchCreateT_kinds client zid _ c hc
        · exact ih c hc

theorem deleteZoneLoop_all_empty (client : PZClientSpec) (zoneMap : List (Int × GoStr)) :
    ∀ buckets, (∀ b ∈ buckets, b.2 = ([] : List Endpoint)) →
      deleteZoneLoop client zoneMap buckets = ([], Except.ok ()) := by
  intro buckets
  induction buckets with
  | nil => intro _; rfl
  | cons b rest ih =>
    intro hall
    obtain ⟨zid, deletes⟩ := b
    have hdel : deletes = [] := hall (zid, deletes) (List.mem_cons_self _ _)
    simp only [deleteZoneLoop, hdel, List.length_nil, if_pos]
    exact ih (fun b hb => hall b (List.mem_cons_of_mem _ hb))

theorem deletePrivateZoneRecordsT_nil (client : PZClientSpec)
    (zoneMap : List (Int × GoStr)) :
    deletePrivateZoneRecordsT client zoneMap [] = ([], Except.ok ()) := by
  rw [deletePrivateZoneRecordsT]
  apply deleteZoneLoop_all_empty
  intro b hb
  simp only [separateCreateChange, List.foldl_nil, List.mem_map] at hb
  obtain ⟨z, _, hz⟩ := hb
  rw [← hz]

theorem applyDeletePhase_eq (client : PZClientSpec) (zoneMap : List (Int × GoStr))
    (toDelete : List Endpoint) :
    applyDeletePhase client zoneMap toDelete
      = deletePrivateZoneRecordsT client zoneMap toDelete := by
  rw [applyDeletePhase]
  by_cases h : 0 < toDelete.length
  · rw [if_pos h]
  · rw [if_neg h]
    have hnil : toDelete = [] := by
      cases toDelete with
      | nil => rfl
      | cons a l => simp at h
    rw [hnil, deletePrivateZoneRecordsT_nil]

theorem applyCreatePhase_kinds (client : PZClientSpec) (zoneMap : List (Int × GoStr))
    (toCreate : List Endpoint) :
    ∀ c ∈ (applyCreatePhase client zoneMap toCreate).1, c.isBatchCreate = true := by
  intro c hc
  rw [applyCreatePhase] at hc
  by_cases h : 0 < toCreate.length
  · rw [if_pos h] at hc
    rw [createPrivateZoneRecordsT] at hc
    by_cases h0 : toCreate.length = 0
    · rw [if_pos h0] at hc
      cases hc
    · rw [if_neg h0] at hc
      exact createZoneLoop_kinds client zoneMap _ c hc
  · rw [if_neg h] at hc
    cases hc

/-- **C3.** During every `ApplyChanges` call, the issued remote-call trace is a
block of delete calls followed by a block of batch-create calls — every delete
is issued before any create — and if the delete phase errors, the call returns
that error with no create call ever issued. -/
theorem applyChanges_delete_before_create (client : PZClientSpec) (changes : Changes) :
    ∃ dcalls ccalls,
      (applyChangesForPrivateZoneT client changes).1 = dcalls ++ ccalls
      ∧ (∀ c ∈ dcalls, c.isDeleteRecord = true)
      ∧ (∀ c ∈ ccalls, c.isBatchCreate = true)
      ∧ (∀ zones e, client.listZonesResult = Except.ok zones →
          (deletePrivateZoneRecordsT client (zones.map (fun z => (z.zid, z.zoneName)))
              (changes.delete ++ changes.updateOld)).2 = Except.error e →
          ccalls = [] ∧ (applyChangesForPrivateZoneT client changes).2 = Except.error e) := by
  rcases hz : client.listZonesResult with e0 | zones
  · refine ⟨[], [], ?_, ?_, ?_, ?_⟩
    · simp [applyChangesForPrivateZoneT, hz]
    · intro c hc
      cases hc
    · intro c hc
      cases hc
    · intro zones e hok _
      cases hok
  · have hdelk : ∀ c ∈ (applyDeletePhase client (zones.map (fun z => (z.zid, z.zoneName)))
        (changes.delete ++ changes.updateOld)).1, c.isDeleteRecord = true := by
      rw [applyDeletePhase_eq, deletePrivateZoneRecordsT]
      exact deleteZoneLoop_kinds client _ _
    rcases hd : (applyDeletePhase client (zones.map (fun z => (z.zid, z.zoneName)))
        (changes.delete ++ changes.updateOld)).2 with e1 | u
    · refine ⟨(applyDeletePhase client (zones.map (fun z => (z.zid, z.zoneName)))
          (changes.delete ++ changes.updateOld)).1, [], ?_, hdelk, ?_, ?_⟩
      · simp [applyChangesForPrivateZoneT, hz, hd]
      · intro c hc
        cases hc
      · intro zones' e hok herr
        cases hok
        rw [← applyDeletePhase_eq, hd] at herr
        refine ⟨rfl, ?_⟩
        simp only [applyChangesForPrivateZoneT, hz, hd]
        exact herr
    · refine ⟨(applyDeletePhase client (zones.map (fun z => (z.zid, z.zoneName)))
          (changes.delete ++ changes.updateOld)).1,
        (applyCreatePhase client (zones.map (fun z => (z.zid, z.zoneName)))
          (changes.create ++ changes.updateNew)).1, ?_, hdelk,
        applyCreatePhase_kinds client _ _, ?_⟩
      · simp [applyChangesForPrivateZoneT, hz, hd]
      · intro zones' e hok herr
        cases hok
        rw [← applyDeletePhase_eq, hd] at herr
        cases herr

def c3Client : PZClientSpec :=
  { listZonesResult := Except.ok [⟨123, gs "example.com"⟩]
    deleteRecordResult := fun _ _ _ _ => Except.ok ()
    batchCreateResult := fun _ _ => Except.ok [gs "rid-1"] }

def c3Changes : Changes :=
  { create := [⟨gs "www.example.com", gs "A", [gs "1.2.3.4"], 300⟩]
    updateOld := []
    updateNew := []
    delete := [⟨gs "old.example.com", gs "A", [gs "9.9.9.9"], 300⟩] }

theorem applyChanges_delete_before_create_witness :
    ∃ dcalls ccalls,
      (applyChangesForPrivateZoneT c3Client c3Changes).1 = dcalls ++ ccalls
      ∧ (∀ c ∈ dcalls, c.isDeleteRecord = true)
      ∧ (∀ c ∈ ccalls, c.isBatchCreate = true)
      ∧ (∀ zones e, c3Client.listZonesResult = Except.ok zones →
          (deletePrivateZoneRecordsT c3Client (zones.map (fun z => (z.zid, z.zoneName)))
              (c3Changes.delete ++ c3Changes.updateOld)).2 = Except.error e →
          ccalls = []
            ∧ (applyChangesForPrivateZoneT c3Client c3Changes).2 = Except.error e) :=
  applyChanges_delete_before_create c3Client c3Changes

/-! ### C8: zone classification by longest suffix -/

/-- Correctness of the modelled `findOwningZone`: `none` exactly when no zone
name matches; otherwise the returned entry is a listed zone whose name matches
and has maximal length among all matching zones. -/
theorem findZone_correct (fqdn : GoStr) :
    ∀ (zoneMap : List (Int × GoStr)),
      (findZone zoneMap fqdn = none ∧ ∀ z ∈ zoneMap, zoneMatches fqdn z.2 = false)
      ∨ (∃ zid zname, findZone zoneMap fqdn = some (zid, zname)
          ∧ (zid, zname) ∈ zoneMap ∧ zoneMatches fqdn zname = true
          ∧ ∀ z ∈ zoneMap, zoneMatches fqdn z.2 = true → z.2.length ≤ zname.length) := by
  intro zoneMap
  induction zoneMap using List.reverseRecOn with
  | nil =>
    left
    exact ⟨rfl, by intro z hz; cases hz⟩
  | append_singleton l z ih =>
    have hstep : findZone (l ++ [z]) fqdn
        = (if zoneMatches fqdn z.2 then
            match findZone l fqdn with
            | none => some z
            | some b => if b.2.length < z.2.length then some z else some b
          else findZone l fqdn) := by
      simp [findZone, List.foldl_append]
    rcases ih with ⟨hnone, hall⟩ | ⟨zid, zname, hsome, hmem, hmatch, hmax⟩
    · by_cases hm : zoneMatches fqdn z.2 = true
      · right
        refine ⟨z.1, z.2, ?_, ?_, hm, ?_⟩
        · rw [hstep, if_pos hm, hnone]
        · exact List.mem_append_right l (by simp)
        · intro w hw hwm
          rcases List.mem_append.mp hw with hw1 | hw1
          · exfalso
            rw [hall w hw1] at hwm
            cases hwm
          · rw [List.mem_singleton.mp hw1]
      · left
        have hm' : zoneMatches fqdn z.2 = false := by simpa using hm
        constructor
        · rw [hstep, if_neg (by simp [hm']), hnone]
        · intro w hw
          rcases List.mem_append.mp hw with hw | hw
          · exact hall w hw
          · rw [List.mem_singleton.mp hw]
            exact hm'
    · by_cases hm : zoneMatches fqdn z.2 = true
      · by_cases hlen : zname.length < z.2.length
        · right
          refine ⟨z.1, z.2, ?_, List.mem_append_right l (by simp), hm, ?_⟩
          · rw [hstep, if_pos hm, hsome]
            simp [hlen]
          · intro w hw hwm
            rcases List.mem_append.mp hw with hw | hw
            · exact le_trans (hmax w hw hwm) (le_of_lt hlen)
            · rw [List.mem_singleton.mp hw]
        · right
          refine ⟨zid, zname, ?_, List.mem_append_left _ hmem, hmatch, ?_⟩
          · rw [hstep, if_pos hm, hsome]
            simp [hlen]
          · intro w hw hwm
            rcases List.mem_append.mp hw with hw | hw
            · exact hmax w hw hwm
            · rw [List.mem_singleton.mp hw]
              omega
      · right
        have hm' : zoneMatches fqdn z.2 = false := by simpa using hm
        refine ⟨zid, zname, ?_, List.mem_append_left _ hmem, hmatch, ?_⟩
        · rw [hstep, if_neg (by simp [hm']), hsome]
        · intro w hw hwm
          rcases List.mem_append.mp hw with hw | hw
          · exact hmax w hw hwm
          · rw [List.mem_singleton.mp hw] at hwm
            rw [hm'] at hwm
            cases hwm

theorem appendAt_self (m : List (Int × List Endpoint)) (k : Int) (e : Endpoint) :
    ∃ bucket ∈ appendAt m k e, bucket.1 = k ∧ e ∈ bucket.2 := by
  induction m with
  | nil => exact ⟨(k, [e]), by simp [appendAt]⟩
  | cons hd tl ih =>
    obtain ⟨k', l⟩ := hd
    by_cases hk : k' = k
    · subst hk
      refine ⟨(k', l ++ [e]), ?_, rfl, by simp⟩
      simp [appendAt]
    · obtain ⟨bucket, hb, hb1, hb2⟩ := ih
      exact ⟨bucket, by simp [appendAt, hk, hb], hb1, hb2⟩

theorem appendAt_preserve {m : List (Int × List Endpoint)} {bucket : Int × List Endpoint}
    {x : Endpoint} (hb : bucket ∈ m) (hx : x ∈ bucket.2) (k : Int) (e : Endpoint) :
    ∃ bucket' ∈ appendAt m k e, bucket'.1 = bucket.1 ∧ x ∈ bucket'.2 := by
  induction m with
  | nil => cases hb
  | cons hd tl ih =>
    obtain ⟨k', l⟩ := hd
    rcases List.mem_cons.mp hb with heq | htl
    · by_cases hk : k' = k
      · subst hk
        subst heq
        refine ⟨(k', l ++ [e]), by simp [appendAt], rfl, ?_⟩
        exact List.mem_append_left _ hx
      · subst heq
        exact ⟨(k', l), by simp [appendAt, hk], rfl, hx⟩
    · by_cases hk : k' = k
      · subst hk
        exact ⟨bucket, by simp [appendAt, htl], rfl, hx⟩
      · obtain ⟨bucket', hb', h1, h2⟩ := ih htl
        exact ⟨bucket', by simp [appendAt, hk, hb'], h1, h2⟩

theorem appendAt_not_mem {m : List (Int × List Endpoint)} {x : Endpoint}
    (hall : ∀ b ∈ m, x ∉ b.2) {e : Endpoint} (hne : x ≠ e) (k : Int) :
    ∀ b ∈ appendAt m k e, x ∉ b.2 := by
  induction m with
  | nil =>
    intro b hb
    simp only [appendAt, List.mem_singleton] at hb
    rw [hb]
    simp only [List.mem_singleton]
    exact hne
  | cons hd tl ih =>
    intro b hb
    obtain ⟨k', l⟩ := hd
    by_cases hk : k' = k
    · subst hk
      simp only [appendAt, if_pos rfl] at hb
      cases hb with
      | head =>
        simp only [List.mem_append, List.mem_singleton]
        rintro (hin | hin)
        · exact hall (k', l) (List.mem_cons_self _ _) hin
        · exact hne hin
      | tail _ hb =>
        exact hall b (List.mem_cons_of_mem _ hb)
    · simp only [appendAt, if_neg hk] at hb
      cases hb with
      | head => exact hall (k', l) (List.mem_cons_self _ _)
      | tail _ hb =>
        exact ih (fun b' hb' => hall b' (List.mem_cons_of_mem _ hb')) _ hb

theorem separateCreateChange_append (zoneMap : List (Int × GoStr))
    (eps : List Endpoint) (e : Endpoint) :
    separateCreateChange zoneMap (eps ++ [e])
      = (match findZone zoneMap e.dnsName with
        | some z => appendAt (separateCreateChange zoneMap eps) z.1 e
        | none => separateCreateChange zoneMap eps) := by
  simp [separateCreateChange, List.foldl_append]

theorem sep_mem_of_found (zoneMap : List (Int × GoStr)) (ep : Endpoint)
    (z : Int × GoStr) (hfz : findZone zoneMap ep.dnsName = some z) :
    ∀ (eps : List Endpoint), ep ∈ eps →
      ∃ bucket ∈ separateCreateChange zoneMap eps, bucket.1 = z.1 ∧ ep ∈ bucket.2 := by
  intro eps
  induction eps using List.reverseRecOn with
  | nil => intro h; cases h
  | append_singleton l e ih =>
    intro hep
    rw [separateCreateChange_append]
    rcases List.mem_append.mp hep with hin | hin
    · obtain ⟨bucket, hb, h1, h2⟩ := ih hin
      rcases hfe : findZone zoneMap e.dnsName with _ | w
      · exact ⟨bucket, hb, h1, h2⟩
      · obtain ⟨bucket', hb', h1', h2'⟩ := appendAt_preserve hb h2 w.1 e
        exact ⟨bucket', hb', by rw [h1', h1], h2'⟩
    · rw [List.mem_singleton.mp hin] at hfz ⊢
      rw [hfz]
      exact appendAt_self _ z.1 e

theorem sep_not_mem_of_none (zoneMap : List (Int × GoStr)) (ep : Endpoint)
    (hfz : findZone zoneMap ep.dnsName = none) :
    ∀ (eps : List Endpoint), ∀ bucket ∈ separateCreateChange zoneMap eps,
      ep ∉ bucket.2 := by
  intro eps
  induction eps using List.reverseRecOn with
  | nil =>
    intro bucket hb
    simp only [separateCreateChange, List.foldl_nil, List.mem_map] at hb
    obtain ⟨w, _, hw⟩ := hb
    rw [← hw]
    simp
  | append_singleton l e ih =>
    intro bucket hb
    rw [separateCreateChange_append] at hb
    rcases hfe : findZone zoneMap e.dnsName with _ | w
    · rw [hfe] at hb
      exact ih bucket hb
    · rw [hfe] at hb
      have hne : ep ≠ e := by
        intro habs
        rw [habs, hfe] at hfz
        cases hfz
      exact appendAt_not_mem ih hne w.1 bucket hb

/-- **C8.** When the write path classifies an endpoint's DNS name to a zone,
the chosen zone is a listed zone whose name is a suffix of (or equal to) the
DNS name and is of maximal length among all such zones (a nested, more
specific zone beats its parent), and the endpoint lands in that zone's bucket;
an endpoint whose DNS name matches no zone lands in no bucket and produces no
error. -/
theorem separateCreateChange_owning_zone (zoneMap : List (Int × GoStr))
    (endpoints : List Endpoint) (ep : Endpoint) (hep : ep ∈ endpoints) :
    (∀ z, findZone zoneMap ep.dnsName = some z →
        z ∈ zoneMap ∧ zoneMatches ep.dnsName z.2 = true
        ∧ (∀ w ∈ zoneMap, zoneMatches ep.dnsName w.2 = true → w.2.length ≤ z.2.length)
        ∧ ∃ bucket ∈ separateCreateChange zoneMap endpoints,
            bucket.1 = z.1 ∧ ep ∈ bucket.2)
    ∧ (findZone zoneMap ep.dnsName = none →
        (∀ w ∈ zoneMap, zoneMatches ep.dnsName w.2 = false)
        ∧ ∀ bucket ∈ separateCreateChange zoneMap endpoints, ep ∉ bucket.2) := by
  constructor
  · intro z hfz
    rcases findZone_correct ep.dnsName zoneMap with ⟨hnone, _⟩ |
        ⟨zid, zname, hsome, hmem, hmatch, hmax⟩
    · rw [hfz] at hnone
      cases hnone
    · rw [hfz] at hsome
      cases hsome
      exact ⟨hmem, hmatch, hmax, sep_mem_of_found zoneMap ep _ hfz endpoints hep⟩
  · intro hfz
    rcases findZone_correct ep.dnsName zoneMap with ⟨_, hall⟩ |
        ⟨zid, zname, hsome, _, _, _⟩
    · exact ⟨hall, sep_not_mem_of_none zoneMap ep hfz endpoints⟩
    · rw [hfz] at hsome
      cases hsome

def c8ZoneMap : List (Int × GoStr) :=
  [(1, gs "example.com"), (2, gs "b.example.com")]

def c8Endpoint : Endpoint :=
  ⟨gs "a.b.example.com", gs "A", [gs "1.2.3.4"], 300⟩

theorem separateCreateChange_owning_zone_witness :
    c8Endpoint ∈ [c8Endpoint]
    ∧ findZone c8ZoneMap c8Endpoint.dnsName = some (2, gs "b.example.com")
    ∧ ((∀ z, findZone c8ZoneMap c8Endpoint.dnsName = some z →
        z ∈ c8ZoneMap ∧ zoneMatches c8Endpoint.dnsName z.2 = true
        ∧ (∀ w ∈ c8ZoneMap, zoneMatches c8Endpoint.dnsName w.2 = true →
            w.2.length ≤ z.2.length)
        ∧ ∃ bucket ∈ separateCreateChange c8ZoneMap [c8Endpoint],
            bucket.1 = z.1 ∧ c8Endpoint ∈ bucket.2)
      ∧ (findZone c8ZoneMap c8Endpoint.dnsName = none →
          (∀ w ∈ c8ZoneMap, zoneMatches c8Endpoint.dnsName w.2 = false)
          ∧ ∀ bucket ∈ separateCreateChange c8ZoneMap [c8Endpoint],
              c8Endpoint ∉ bucket.2)) :=
  ⟨by decide, by decide,
    separateCreateChange_owning_zone c8ZoneMap [c8Endpoint] c8Endpoint (by decide)⟩
